import Mathlib

/-!
Mean of an `int` array: sequential loop and OpenMP reduction.

A shallow embedding of `lab1_3.cpp` (`fill_array`, `average_sequential`,
`average_parallel`) and the properties of its specification.

Conventions of the embedding.

* The memory reachable through `int* arr` is a function `Mem := Nat → Int`;
  `arr i` is the `int` stored in `arr[i]`.  A store `arr[i] = v` is
  `Function.update arr i v`.  Every function returns the memory it leaves behind.
* `int` and `long long` values are mathematical integers.  The `long long`
  accumulator is reduced by `wrap64` (two's complement, 64 bits) after every
  addition, so that overflow is visible in the model.
* The `double` operations (`static_cast<double>` of a `long long`, the implicit
  conversion of an `int`, and `/`) are parameters (`DoubleOps`).  Three
  instances are used: `symOps` (the unevaluated expression), `exactOps` (real
  arithmetic in `ℚ`, the value before rounding) and `ieeeOps` (IEEE 754
  binary64, round to nearest even, every operation rounded).
* The work distribution and the combination order chosen by the OpenMP runtime
  are a parameter (`Schedule`).
-/

namespace Lab1_3

/-! ## Machine integers -/

/-- Memory seen through `int* arr`: `arr i` is the value of `arr[i]`. -/
abbrev Mem := Nat → Int

/-- Smallest `int` (32 bits). -/
def INT_MIN : Int := -2147483648

/-- Largest `int` (32 bits). -/
def INT_MAX : Int := 2147483647

/-- Smallest `long long` (64 bits). -/
def LLONG_MIN : Int := -9223372036854775808

/-- Largest `long long` (64 bits). -/
def LLONG_MAX : Int := 9223372036854775807

/-- The integer is representable as a signed 32-bit `int`. -/
def isInt32 (z : Int) : Prop := INT_MIN ≤ z ∧ z ≤ INT_MAX

instance (z : Int) : Decidable (isInt32 z) := by
  unfold isInt32; exact inferInstance

/-- The integer is representable as a signed 64-bit `long long`. -/
def isInt64 (z : Int) : Prop := LLONG_MIN ≤ z ∧ z ≤ LLONG_MAX

instance (z : Int) : Decidable (isInt64 z) := by
  unfold isInt64; exact inferInstance

/-- Two's-complement reduction of a mathematical integer to 64 bits. -/
def wrap64 (z : Int) : Int :=
  (z + 9223372036854775808) % 18446744073709551616 - 9223372036854775808

/-- The mathematical sum `arr[0] + ... + arr[k-1]`. -/
def exactSum (arr : Mem) (k : Nat) : Int := ((List.range k).map arr).sum

/-- The mathematical sum of `arr[i]` over a list of indices. -/
def exactSumOver (arr : Mem) (l : List Nat) : Int := (l.map arr).sum

/-! ## The `double` operations used by the reducers -/

/-- The three `double` operations of `static_cast<double>(sum) / size`. -/
structure DoubleOps (D : Type) where
  /-- The conversion `static_cast<double>(sum)` of a `long long`. -/
  ofLongLong : Int → D
  /-- The implicit conversion of the `int` operand `size`. -/
  ofInt : Int → D
  /-- The division `/` of two `double`s. -/
  div : D → D → D

/-- Real arithmetic: the value of the quotient before any rounding. -/
def exactOps : DoubleOps ℚ where
  ofLongLong := fun z => (z : ℚ)
  ofInt := fun n => (n : ℚ)
  div := fun a b => a / b

/-- An unevaluated `double` expression. -/
inductive DExpr where
  | ofLongLong (z : Int)
  | ofInt (n : Int)
  | div (a b : DExpr)
  deriving DecidableEq

/-- The operations that only build the expression. -/
def symOps : DoubleOps DExpr where
  ofLongLong := DExpr.ofLongLong
  ofInt := DExpr.ofInt
  div := DExpr.div

/-! ## `average_sequential` -/

/-- State of the loop of `average_sequential`: the memory, the counter `i` and
the accumulator `sum`.  The counter starts at `0` and is incremented only while
`i < size ≤ INT_MAX`, so `i++` never overflows and `i` is a natural number. -/
structure SeqState where
  arr : Mem
  i : Nat
  sum : Int

/-- One iteration: `sum += arr[i]` followed by `i++`. -/
def seqStep (s : SeqState) : SeqState :=
  { s with sum := wrap64 (s.sum + s.arr s.i), i := s.i + 1 }

/-- The loop `for (...; i < size; i++) sum += arr[i];` from a given state. -/
def seqLoop (size : Int) (s : SeqState) : SeqState :=
  if (s.i : Int) < size then seqLoop size (seqStep s) else s
termination_by (size - s.i).toNat
decreasing_by
  simp only [seqStep]
  push_cast
  omega

/-- Function `average_sequential(arr, size)`: the returned `double` and the memory. -/
def average_sequential {D : Type} (ops : DoubleOps D) (arr : Mem) (size : Int) : D × Mem :=
  let s := seqLoop size { arr := arr, i := 0, sum := 0 }
  (ops.div (ops.ofLongLong s.sum) (ops.ofInt size), s.arr)

/-! ## `average_parallel` -/

/-- What the OpenMP runtime chooses for `parallel for reduction(+:sum)`:
`chunks[t]` lists the iterations given to worker `t`, in the order in which the
worker executes them; `order` lists the workers in the order in which their
private copies are added to the shared `sum`. -/
structure Schedule where
  chunks : List (List Nat)
  order : List Nat

/-- The chunks split the iterations `0 .. size-1` (each iteration is in exactly
one chunk, once) and every worker is combined exactly once. -/
def Schedule.valid (sch : Schedule) (size : Int) : Prop :=
  sch.chunks.flatten.Perm (List.range size.toNat) ∧
    sch.order.Perm (List.range sch.chunks.length)

instance (sch : Schedule) (size : Int) : Decidable (sch.valid size) := by
  unfold Schedule.valid; exact inferInstance

/-- The memory together with one `long long` accumulator. -/
structure SumState where
  arr : Mem
  sum : Int

/-- Loop body on a worker: `sum += arr[i]` on the private copy of `sum`. -/
def workerStep (w : SumState) (i : Nat) : SumState :=
  { w with sum := wrap64 (w.sum + w.arr i) }

/-- A worker: its private copy starts at `0` and takes the iterations of its chunk. -/
def runWorker (arr : Mem) (chunk : List Nat) : SumState :=
  chunk.foldl workerStep { arr := arr, sum := 0 }

/-- All workers of the team: the memory they leave and their private sums. -/
def runWorkers (arr : Mem) : List (List Nat) → Mem × List Int
  | [] => (arr, [])
  | c :: cs =>
    let w := runWorker arr c
    let r := runWorkers w.arr cs
    (r.1, w.sum :: r.2)

/-- The private copy of worker `t` is added to the shared `sum`. -/
def combineStep (priv : List Int) (s : SumState) (t : Nat) : SumState :=
  { s with sum := wrap64 (s.sum + priv.getD t 0) }

/-- End of the reduction: the shared `sum` (`0` before the loop) receives the
private copies in the given order. -/
def combine (arr : Mem) (priv : List Int) (order : List Nat) : SumState :=
  order.foldl (combineStep priv) { arr := arr, sum := 0 }

/-- Function `average_parallel(arr, size)` under a schedule of the runtime. -/
def average_parallel {D : Type} (ops : DoubleOps D) (arr : Mem) (size : Int)
    (sch : Schedule) : D × Mem :=
  let r := runWorkers arr sch.chunks
  let s := combine r.1 r.2 sch.order
  (ops.div (ops.ofLongLong s.sum) (ops.ofInt size), s.arr)

/-! ## `fill_array` -/

/-- State of the loop of `fill_array`: the memory, the counter `i` and the
number of calls of `rand()` made so far. -/
structure FillState where
  arr : Mem
  i : Nat
  calls : Nat

/-- One iteration: `arr[i] = rand() % 100 + 1` followed by `i++`; `rand k` is
the value returned by call number `k` and `%` truncates as in C++.  For an
`int` operand the stored value lies in `[-98, 100]`, so it is an `int`. -/
def fillStep (rand : Nat → Int) (s : FillState) : FillState :=
  { arr := Function.update s.arr s.i (Int.tmod (rand s.calls) 100 + 1),
    i := s.i + 1,
    calls := s.calls + 1 }

/-- The loop `for (...; i < size; i++) arr[i] = rand() % 100 + 1;`. -/
def fillLoop (rand : Nat → Int) (size : Int) (s : FillState) : FillState :=
  if (s.i : Int) < size then fillLoop rand size (fillStep rand s) else s
termination_by (size - s.i).toNat
decreasing_by
  simp only [fillStep]
  push_cast
  omega

/-- Function `fill_array(arr, size)`: the memory after the call. -/
def fill_array (rand : Nat → Int) (arr : Mem) (size : Int) : Mem :=
  (fillLoop rand size { arr := arr, i := 0, calls := 0 }).arr

/-! ## Intermediate values of the accumulators -/

/-- The accumulator of `average_sequential` after `k` iterations of its loop. -/
def seqSumAfter (arr : Mem) (k : Nat) : Int :=
  (seqStep^[k] { arr := arr, i := 0, sum := 0 }).sum

/-- The private sum of a worker after the first `k` iterations of its chunk. -/
def workerSumAfter (arr : Mem) (chunk : List Nat) (k : Nat) : Int :=
  (runWorker arr (chunk.take k)).sum

/-- The shared `sum` of `average_parallel` after the first `j` private copies
have been added to it. -/
def combinedAfter (arr : Mem) (sch : Schedule) (j : Nat) : Int :=
  (combine (runWorkers arr sch.chunks).1 (runWorkers arr sch.chunks).2 (sch.order.take j)).sum

/-- The iterations whose elements are in the shared `sum` after `j` combination steps. -/
def combinedIndices (sch : Schedule) (j : Nat) : List Nat :=
  ((sch.order.take j).map (fun t => sch.chunks.getD t [])).flatten

/-! ## Concrete inputs -/

/-- The array `[1, 2, 3, 4]` (cells past the end read as `0`). -/
def arr1234 : Mem := fun i => [1, 2, 3, 4].getD i 0

/-- An array whose elements are all `100`. -/
def arr100 : Mem := fun _ => 100

/-- An array whose elements are all `0`. -/
def arrZero : Mem := fun _ => 0

/-- Two workers, contiguous halves of four iterations, worker 1 combined first. -/
def schedHalves : Schedule := { chunks := [[0, 1], [2, 3]], order := [1, 0] }

/-- Three workers, interleaved iterations, one idle worker. -/
def schedCyclic : Schedule := { chunks := [[3, 1], [], [0, 2]], order := [2, 0, 1] }

/-- One worker that takes the single iteration of a one-element array. -/
def schedOne : Schedule := { chunks := [[0]], order := [0] }

/-- Two workers without any iteration. -/
def schedIdle : Schedule := { chunks := [[], []], order := [1, 0] }

/-- A `rand()` that returns `99, 100, 101, ...`. -/
def randFrom99 : Nat → Int := fun k => 99 + k

/-- A one-element array that holds the smallest `int`. -/
def arrIntMin : Mem := fun i => if i = 0 then -2147483648 else 0

/-! ## IEEE 754 binary64 arithmetic of the `double` operations

The finite `double`s are the rationals `m * 2^e` with `|m| < 2^53`.  The
conversions and the division return the nearest such number, ties to the even
significand (the default rounding of IEEE 754).  The exponent range is not
modelled: the values of this program have magnitude `0` or between `2^-31` and
`2^63`, far inside the normal range.  A division by zero has no finite value
and is `none`. -/

/-- The integer nearest to `n / d` (for `0 < d`), a tie going to the even one. -/
def divTiesEven (n d : Nat) : Nat :=
  if 2 * (n % d) < d then n / d
  else if d < 2 * (n % d) then n / d + 1
  else if (n / d) % 2 = 0 then n / d else n / d + 1

/-- Numerator and denominator of `(n / d) / 2^e`. -/
def scalePow2 (n d : Nat) (e : Int) : Nat × Nat :=
  if 0 ≤ e then (n, d * 2 ^ e.toNat) else (n * 2 ^ (-e).toNat, d)

/-- The integer `k` with `2^k ≤ n / d < 2^(k+1)`, for `0 < n` and `0 < d`. -/
def floorLog2Quot (n d : Nat) : Int :=
  if (scalePow2 n d ((Nat.log2 n : Int) - (Nat.log2 d : Int))).2
      ≤ (scalePow2 n d ((Nat.log2 n : Int) - (Nat.log2 d : Int))).1
  then (Nat.log2 n : Int) - (Nat.log2 d : Int)
  else (Nat.log2 n : Int) - (Nat.log2 d : Int) - 1

/-- The `double` nearest to `n / d` for `0 < n` and `0 < d`: a 53-bit
significand in `[2^52, 2^53]` times the power of two of the binade. -/
def roundPos (n d : Nat) : ℚ :=
  (divTiesEven (scalePow2 n d (floorLog2Quot n d - 52)).1
      (scalePow2 n d (floorLog2Quot n d - 52)).2 : ℚ)
    * (2 : ℚ) ^ (floorLog2Quot n d - 52)

/-- The `double` nearest to the quotient `n / d` of two integers (`d ≠ 0`):
the quotient rounded once. -/
def roundQuot (n d : Int) : ℚ :=
  if n = 0 then 0
  else if (0 < n ∧ 0 < d) ∨ (n < 0 ∧ d < 0) then roundPos n.natAbs d.natAbs
  else -roundPos n.natAbs d.natAbs

/-- Division of two `double`s: the exact quotient rounded once; `none` when the
divisor is zero or an operand is not finite. -/
def ieeeDiv : Option ℚ → Option ℚ → Option ℚ
  | some a, some b =>
    if b = 0 then none else some (roundQuot (a.num * (b.den : Int)) ((a.den : Int) * b.num))
  | _, _ => none

/-- The `double` operations under IEEE 754 binary64, round to nearest even. -/
def ieeeOps : DoubleOps (Option ℚ) where
  ofLongLong := fun z => some (roundQuot z 1)
  ofInt := fun n => some (roundQuot n 1)
  div := ieeeDiv

/-- An array whose elements are all `INT_MAX`. -/
def arrIntMax : Mem := fun _ => 2147483647

/-! ## Arithmetic of the accumulator -/

theorem wrap64_of_isInt64 {z : Int} (h : isInt64 z) : wrap64 z = z := by
  unfold isInt64 LLONG_MIN LLONG_MAX at h
  unfold wrap64
  omega

theorem isInt64_wrap64 (z : Int) : isInt64 (wrap64 z) := by
  unfold isInt64 LLONG_MIN LLONG_MAX wrap64
  omega

theorem wrap64_wrap64_add (a b : Int) : wrap64 (wrap64 a + b) = wrap64 (a + b) := by
  unfold wrap64
  omega

theorem wrap64_add_wrap64 (a b : Int) : wrap64 (a + wrap64 b) = wrap64 (a + b) := by
  unfold wrap64
  omega

theorem wrap64_wrap64 (a : Int) : wrap64 (wrap64 a) = wrap64 a :=
  wrap64_of_isInt64 (isInt64_wrap64 a)

theorem exactSum_succ (arr : Mem) (k : Nat) : exactSum arr (k + 1) = exactSum arr k + arr k := by
  simp [exactSum, List.range_succ]


/-! ## The sequential loop -/

theorem seqStep_iterate_arr (k : Nat) (s : SeqState) : (seqStep^[k] s).arr = s.arr := by
  induction k generalizing s with
  | zero => rfl
  | succ k ih => rw [Function.iterate_succ_apply, ih]; rfl

theorem seqStep_iterate_i (k : Nat) (s : SeqState) : (seqStep^[k] s).i = s.i + k := by
  induction k generalizing s with
  | zero => rfl
  | succ k ih => rw [Function.iterate_succ_apply, ih]; simp only [seqStep]; omega

/-- The loop performs exactly `size - i` iterations (none when `size ≤ i`). -/
theorem seqLoop_eq_iterate (size : Int) (s : SeqState) :
    seqLoop size s = seqStep^[(size - s.i).toNat] s := by
  generalize hn : (size - s.i).toNat = n
  induction n generalizing s with
  | zero =>
    rw [seqLoop, if_neg (by omega)]
    rfl
  | succ n ih =>
    rw [seqLoop, if_pos (by omega), Function.iterate_succ_apply]
    apply ih
    simp only [seqStep]
    push_cast
    omega

/-- After `k` iterations from the initial state the accumulator holds the
wrapped sum of the first `k` elements. -/
theorem seqStep_iterate_sum (arr : Mem) (k : Nat) :
    (seqStep^[k] { arr := arr, i := 0, sum := 0 }).sum = wrap64 (exactSum arr k) := by
  induction k with
  | zero => simp [exactSum, wrap64]
  | succ k ih =>
    rw [Function.iterate_succ_apply']
    simp only [seqStep]
    rw [ih, seqStep_iterate_arr, seqStep_iterate_i, wrap64_wrap64_add, exactSum_succ]
    simp

theorem seqLoop_init_sum (arr : Mem) (size : Int) :
    (seqLoop size { arr := arr, i := 0, sum := 0 }).sum = wrap64 (exactSum arr size.toNat) := by
  rw [seqLoop_eq_iterate]
  simpa using seqStep_iterate_sum arr size.toNat

theorem seqLoop_arr (size : Int) (s : SeqState) : (seqLoop size s).arr = s.arr := by
  rw [seqLoop_eq_iterate, seqStep_iterate_arr]

/-! ## Bounds on exact sums -/

theorem exactSumOver_bounds (arr : Mem) (lo hi : Int) (l : List Nat)
    (h : ∀ i ∈ l, lo ≤ arr i ∧ arr i ≤ hi) :
    (l.length : Int) * lo ≤ exactSumOver arr l ∧ exactSumOver arr l ≤ (l.length : Int) * hi := by
  induction l with
  | nil => simp [exactSumOver]
  | cons a l ih =>
    have ha := h a (List.mem_cons_self a l)
    have hl := ih (fun i hi => h i (List.mem_cons_of_mem a hi))
    simp only [exactSumOver, List.map_cons, List.sum_cons, List.length_cons] at hl ⊢
    push_cast
    constructor <;> nlinarith [ha.1, ha.2, hl.1, hl.2]

theorem exactSum_eq_over (arr : Mem) (k : Nat) : exactSum arr k = exactSumOver arr (List.range k) := rfl

/-- A sum of at most `n` terms, each in `[lo, hi]` with `lo ≤ 0 ≤ hi`, lies in `[n*lo, n*hi]`. -/
theorem exactSumOver_window (arr : Mem) (lo hi : Int) (hlo : lo ≤ 0) (hhi : 0 ≤ hi)
    (n : Nat) (l : List Nat) (hlen : l.length ≤ n)
    (h : ∀ i ∈ l, lo ≤ arr i ∧ arr i ≤ hi) :
    (n : Int) * lo ≤ exactSumOver arr l ∧ exactSumOver arr l ≤ (n : Int) * hi := by
  have hb := exactSumOver_bounds arr lo hi l h
  have hlen' : (l.length : Int) ≤ (n : Int) := by exact_mod_cast hlen
  constructor
  · nlinarith [hb.1]
  · nlinarith [hb.2]

/-! ## Workers and the combination of their private sums -/

theorem foldl_workerStep_arr (l : List Nat) (w : SumState) :
    (l.foldl workerStep w).arr = w.arr := by
  induction l generalizing w with
  | nil => rfl
  | cons a l ih => rw [List.foldl_cons, ih]; rfl

theorem foldl_workerStep_isInt64 (l : List Nat) (w : SumState) (h : isInt64 w.sum) :
    isInt64 (l.foldl workerStep w).sum := by
  induction l generalizing w with
  | nil => exact h
  | cons a l ih => rw [List.foldl_cons]; exact ih _ (isInt64_wrap64 _)

theorem foldl_workerStep_sum (l : List Nat) (w : SumState) :
    wrap64 (l.foldl workerStep w).sum = wrap64 (w.sum + exactSumOver w.arr l) := by
  induction l generalizing w with
  | nil => simp [exactSumOver]
  | cons a l ih =>
    rw [List.foldl_cons, ih]
    simp only [workerStep, exactSumOver, List.map_cons, List.sum_cons]
    rw [wrap64_wrap64_add, add_assoc]

theorem isInt64_zero : isInt64 0 := by
  unfold isInt64 LLONG_MIN LLONG_MAX; omega

/-- A worker ends with the wrapped sum of the elements of its chunk. -/
theorem runWorker_sum (arr : Mem) (c : List Nat) :
    (runWorker arr c).sum = wrap64 (exactSumOver arr c) := by
  have h1 := foldl_workerStep_sum c { arr := arr, sum := 0 }
  have h2 := foldl_workerStep_isInt64 c { arr := arr, sum := 0 } isInt64_zero
  rw [wrap64_of_isInt64 h2] at h1
  simpa [runWorker] using h1

theorem runWorker_arr (arr : Mem) (c : List Nat) : (runWorker arr c).arr = arr :=
  foldl_workerStep_arr c _

theorem runWorkers_eq (arr : Mem) (chunks : List (List Nat)) :
    runWorkers arr chunks = (arr, chunks.map (fun c => wrap64 (exactSumOver arr c))) := by
  induction chunks with
  | nil => rfl
  | cons c cs ih =>
    simp only [runWorkers, runWorker_arr, ih, runWorker_sum, List.map_cons]

theorem foldl_combineStep_arr (priv : List Int) (l : List Nat) (s : SumState) :
    (l.foldl (combineStep priv) s).arr = s.arr := by
  induction l generalizing s with
  | nil => rfl
  | cons a l ih => rw [List.foldl_cons, ih]; rfl

theorem foldl_combineStep_isInt64 (priv : List Int) (l : List Nat) (s : SumState)
    (h : isInt64 s.sum) : isInt64 (l.foldl (combineStep priv) s).sum := by
  induction l generalizing s with
  | nil => exact h
  | cons a l ih => rw [List.foldl_cons]; exact ih _ (isInt64_wrap64 _)

theorem foldl_combineStep_sum (priv : List Int) (l : List Nat) (s : SumState) :
    wrap64 (l.foldl (combineStep priv) s).sum
      = wrap64 (s.sum + (l.map (fun t => priv.getD t 0)).sum) := by
  induction l generalizing s with
  | nil => simp
  | cons a l ih =>
    rw [List.foldl_cons, ih]
    simp only [combineStep, List.map_cons, List.sum_cons]
    rw [wrap64_wrap64_add, add_assoc]

/-- The shared accumulator ends with the wrapped sum of the private sums taken in `order`. -/
theorem combine_sum (arr : Mem) (priv : List Int) (order : List Nat) :
    (combine arr priv order).sum = wrap64 ((order.map (fun t => priv.getD t 0)).sum) := by
  have h1 := foldl_combineStep_sum priv order { arr := arr, sum := 0 }
  have h2 := foldl_combineStep_isInt64 priv order { arr := arr, sum := 0 } isInt64_zero
  rw [wrap64_of_isInt64 h2] at h1
  simpa [combine] using h1

theorem combine_arr (arr : Mem) (priv : List Int) (order : List Nat) :
    (combine arr priv order).arr = arr :=
  foldl_combineStep_arr priv order _

theorem map_getD_range (l : List Int) :
    (List.range l.length).map (fun t => l.getD t 0) = l := by
  apply List.ext_getElem
  · simp
  · intro n h1 h2
    simp [List.getD_eq_getElem, h2]

/-- Wrapping the terms of a sum does not change the wrapped total. -/
theorem wrap64_sum_map_wrap64 {α : Type} (g : α → Int) (l : List α) :
    wrap64 ((l.map (fun c => wrap64 (g c))).sum) = wrap64 ((l.map g).sum) := by
  induction l with
  | nil => rfl
  | cons a l ih =>
    simp only [List.map_cons, List.sum_cons]
    rw [wrap64_wrap64_add, ← wrap64_add_wrap64, ih, wrap64_add_wrap64]

theorem sum_chunks_eq_flatten (arr : Mem) (chunks : List (List Nat)) :
    (chunks.map (fun c => exactSumOver arr c)).sum = exactSumOver arr chunks.flatten := by
  induction chunks with
  | nil => rfl
  | cons c cs ih =>
    simp only [List.map_cons, List.sum_cons, List.flatten_cons, ih]
    simp [exactSumOver]

/-- Under a valid schedule the combined accumulator is the wrapped sum of all elements. -/
theorem parallel_sum_eq (arr : Mem) (size : Int) (sch : Schedule) (hv : sch.valid size) :
    (combine (runWorkers arr sch.chunks).1 (runWorkers arr sch.chunks).2 sch.order).sum
      = wrap64 (exactSum arr size.toNat) := by
  rw [runWorkers_eq, combine_sum]
  have hperm := (hv.2.map (fun t =>
    (sch.chunks.map (fun c => wrap64 (exactSumOver arr c))).getD t 0)).sum_eq
  have hlen : sch.chunks.length
      = (sch.chunks.map (fun c => wrap64 (exactSumOver arr c))).length := by simp
  rw [hlen, map_getD_range] at hperm
  rw [hperm, wrap64_sum_map_wrap64, sum_chunks_eq_flatten]
  have h2 := (hv.1.map arr).sum_eq
  simp only [exactSumOver, exactSum]
  rw [h2]
/-! ## Index lists of a valid schedule -/

theorem map_getD_range_chunks (chunks : List (List Nat)) :
    (List.range chunks.length).map (fun t => chunks.getD t []) = chunks := by
  apply List.ext_getElem
  · simp
  · intro n h1 h2
    simp [List.getD_eq_getElem, h2]

/-- Taken in the combination order, the chunks still hold every iteration once. -/
theorem ordered_chunks_perm (sch : Schedule) (size : Int) (hv : sch.valid size) :
    ((sch.order.map (fun t => sch.chunks.getD t [])).flatten).Perm (List.range size.toNat) := by
  have h1 := (hv.2.map (fun t => sch.chunks.getD t [])).flatten
  rw [map_getD_range_chunks] at h1
  exact h1.trans hv.1

theorem sublist_of_perm_range {n : Nat} {L l : List Nat} (hL : L.Perm (List.range n))
    (hl : l.Sublist L) : l.length ≤ n ∧ ∀ i ∈ l, i < n := by
  constructor
  · have := hl.length_le
    rw [hL.length_eq, List.length_range] at this
    exact this
  · intro i hi
    exact List.mem_range.mp (hL.mem_iff.mp (hl.subset hi))

theorem chunk_take_indices (sch : Schedule) (size : Int) (hv : sch.valid size)
    (c : List Nat) (hc : c ∈ sch.chunks) (k : Nat) :
    (c.take k).length ≤ size.toNat ∧ ∀ i ∈ c.take k, i < size.toNat :=
  sublist_of_perm_range hv.1 ((List.take_sublist k c).trans (List.sublist_flatten_of_mem hc))

theorem combinedIndices_sublist (sch : Schedule) (j : Nat) :
    (combinedIndices sch j).Sublist (sch.order.map (fun t => sch.chunks.getD t [])).flatten := by
  unfold combinedIndices
  conv_rhs => rw [← List.take_append_drop j sch.order]
  rw [List.map_append, List.flatten_append]
  exact List.sublist_append_left _ _

theorem combinedIndices_indices (sch : Schedule) (size : Int) (hv : sch.valid size) (j : Nat) :
    (combinedIndices sch j).length ≤ size.toNat ∧ ∀ i ∈ combinedIndices sch j, i < size.toNat :=
  sublist_of_perm_range (ordered_chunks_perm sch size hv) (combinedIndices_sublist sch j)

/-! ## Intermediate values, without any assumption on the data -/

theorem seqSumAfter_eq (arr : Mem) (k : Nat) : seqSumAfter arr k = wrap64 (exactSum arr k) :=
  seqStep_iterate_sum arr k

theorem workerSumAfter_eq (arr : Mem) (c : List Nat) (k : Nat) :
    workerSumAfter arr c k = wrap64 (exactSumOver arr (c.take k)) :=
  runWorker_sum arr (c.take k)

theorem getD_privs (arr : Mem) (chunks : List (List Nat)) (t : Nat) :
    (chunks.map (fun c => wrap64 (exactSumOver arr c))).getD t 0
      = wrap64 (exactSumOver arr (chunks.getD t [])) := by
  have h := @List.getD_map _ _ chunks [] t (fun c => wrap64 (exactSumOver arr c))
  simpa [exactSumOver, wrap64] using h

theorem combinedAfter_eq (arr : Mem) (sch : Schedule) (j : Nat) :
    combinedAfter arr sch j = wrap64 (exactSumOver arr (combinedIndices sch j)) := by
  unfold combinedAfter combinedIndices
  rw [runWorkers_eq, combine_sum]
  simp only [getD_privs]
  rw [wrap64_sum_map_wrap64 (fun t => exactSumOver arr (sch.chunks.getD t []))]
  rw [← sum_chunks_eq_flatten, List.map_map]
  rfl

/-! ## The window argument: no addition leaves the 64-bit range -/

/-- If the `n` elements lie in `[lo, hi]` and `[n*lo, n*hi]` fits in 64 bits, the
exact sum over at most `n` valid indices fits too, so wrapping does not change it. -/
theorem exactSumOver_fits (arr : Mem) (lo hi : Int) (hlo : lo ≤ 0) (hhi : 0 ≤ hi) (n : Nat)
    (hmin : LLONG_MIN ≤ (n : Int) * lo) (hmax : (n : Int) * hi ≤ LLONG_MAX)
    (h : ∀ i : Nat, i < n → lo ≤ arr i ∧ arr i ≤ hi)
    (l : List Nat) (hl : l.length ≤ n ∧ ∀ i ∈ l, i < n) :
    wrap64 (exactSumOver arr l) = exactSumOver arr l ∧
      (n : Int) * lo ≤ exactSumOver arr l ∧ exactSumOver arr l ≤ (n : Int) * hi := by
  have hw := exactSumOver_window arr lo hi hlo hhi n l hl.1 (fun i hi => h i (hl.2 i hi))
  refine ⟨wrap64_of_isInt64 ⟨?_, ?_⟩, hw⟩
  · exact le_trans hmin hw.1
  · exact le_trans hw.2 hmax

theorem range_indices (n k : Nat) (hk : k ≤ n) :
    (List.range k).length ≤ n ∧ ∀ i ∈ List.range k, i < n := by
  constructor
  · simpa using hk
  · intro i hi
    exact lt_of_lt_of_le (List.mem_range.mp hi) hk

/-! ## The loop of `fill_array` -/

theorem fillLoop_eq_iterate (rand : Nat → Int) (size : Int) (s : FillState) :
    fillLoop rand size s = (fillStep rand)^[(size - s.i).toNat] s := by
  generalize hn : (size - s.i).toNat = n
  induction n generalizing s with
  | zero =>
    rw [fillLoop, if_neg (by omega)]
    rfl
  | succ n ih =>
    rw [fillLoop, if_pos (by omega), Function.iterate_succ_apply]
    apply ih
    simp only [fillStep]
    push_cast
    omega

/-- After `k` iterations the first `k` cells hold the generated values, the
other cells are untouched, and `k` calls of `rand()` have been made. -/
theorem fillStep_iterate (rand : Nat → Int) (arr : Mem) (k : Nat) :
    (fillStep rand)^[k] { arr := arr, i := 0, calls := 0 }
      = { arr := fun j => if j < k then Int.tmod (rand j) 100 + 1 else arr j,
          i := k, calls := k } := by
  induction k with
  | zero => simp
  | succ k ih =>
    rw [Function.iterate_succ_apply', ih]
    simp only [fillStep]
    congr 1
    funext j
    by_cases hj : j = k
    · subst hj
      simp
    · rw [Function.update_noteq hj]
      by_cases hlt : j < k
      · simp [hlt, Nat.lt_succ_of_lt hlt]
      · have : ¬ j < k + 1 := by omega
        simp [hlt, this]

theorem fill_array_eq (rand : Nat → Int) (arr : Mem) (size : Int) :
    fill_array rand arr size
      = fun j => if j < size.toNat then Int.tmod (rand j) 100 + 1 else arr j := by
  unfold fill_array
  rw [fillLoop_eq_iterate]
  simp [fillStep_iterate]
/-! ## Consequences for `int` data -/

/-- With at most `INT_MAX` elements of type `int`, the exact sum over valid
indices fits in 64 bits and its absolute value is at most `n * 2^31`. -/
theorem int32_sum_fits (arr : Mem) (n : Nat) (hn : (n : Int) ≤ INT_MAX)
    (h32 : ∀ i : Nat, i < n → isInt32 (arr i))
    (l : List Nat) (hl : l.length ≤ n ∧ ∀ i ∈ l, i < n) :
    wrap64 (exactSumOver arr l) = exactSumOver arr l ∧
      |exactSumOver arr l| ≤ (n : Int) * 2147483648 := by
  have hfit := exactSumOver_fits arr (-2147483648) 2147483648 (by decide) (by decide) n
    (by unfold INT_MAX at hn; unfold LLONG_MIN; omega)
    (by unfold INT_MAX at hn; unfold LLONG_MAX; omega)
    (fun i hi => by
      have := h32 i hi
      unfold isInt32 INT_MIN INT_MAX at this
      constructor <;> omega)
    l hl
  refine ⟨hfit.1, abs_le.mpr ⟨?_, hfit.2.2⟩⟩
  have := hfit.2.1
  linarith

/-- With at most `1000000` elements in `[1, 100]`, the exact sum over valid
indices lies in `[0, 10^8]` and fits in 64 bits. -/
theorem expected_sum_fits (arr : Mem) (n : Nat) (hn : n ≤ 1000000)
    (h : ∀ i : Nat, i < n → 1 ≤ arr i ∧ arr i ≤ 100)
    (l : List Nat) (hl : l.length ≤ n ∧ ∀ i ∈ l, i < n) :
    wrap64 (exactSumOver arr l) = exactSumOver arr l ∧
      0 ≤ exactSumOver arr l ∧ exactSumOver arr l ≤ 100000000 := by
  have hfit := exactSumOver_fits arr 0 100 (by decide) (by decide) n
    (by unfold LLONG_MIN; omega)
    (by unfold LLONG_MAX; omega)
    (fun i hi => ⟨by have := (h i hi).1; omega, (h i hi).2⟩)
    l hl
  refine ⟨hfit.1, ?_, ?_⟩
  · have := hfit.2.1
    omega
  · have := hfit.2.2
    omega

theorem exactSum_const (c : Int) (k : Nat) : exactSum (fun _ => c) k = (k : Int) * c := by
  induction k with
  | zero => simp [exactSum]
  | succ k ih =>
    rw [exactSum_succ, ih]
    push_cast
    ring

theorem average_sequential_fst {D : Type} (ops : DoubleOps D) (arr : Mem) (size : Int) :
    (average_sequential ops arr size).1
      = ops.div (ops.ofLongLong (wrap64 (exactSum arr size.toNat))) (ops.ofInt size) := by
  simp only [average_sequential, seqLoop_init_sum]

theorem average_parallel_fst {D : Type} (ops : DoubleOps D) (arr : Mem) (size : Int)
    (sch : Schedule) (hv : sch.valid size) :
    (average_parallel ops arr size sch).1
      = ops.div (ops.ofLongLong (wrap64 (exactSum arr size.toNat))) (ops.ofInt size) := by
  simp only [average_parallel, parallel_sum_eq arr size sch hv]

theorem average_sequential_snd {D : Type} (ops : DoubleOps D) (arr : Mem) (size : Int) :
    (average_sequential ops arr size).2 = arr := by
  simp only [average_sequential, seqLoop_arr]

theorem average_parallel_snd {D : Type} (ops : DoubleOps D) (arr : Mem) (size : Int)
    (sch : Schedule) : (average_parallel ops arr size sch).2 = arr := by
  simp only [average_parallel, combine_arr, runWorkers_eq]

theorem arr1234_isInt32 (i : Nat) : isInt32 (arr1234 i) := by
  unfold arr1234
  match i with
  | 0 => decide
  | 1 => decide
  | 2 => decide
  | 3 => decide
  | (n + 4) => simp [isInt32, INT_MIN, INT_MAX]

theorem arr1234_expected (i : Nat) (hi : (i : Int) < 4) : 1 ≤ arr1234 i ∧ arr1234 i ≤ 100 := by
  have h4 : i < 4 := by omega
  unfold arr1234
  interval_cases i <;> decide

theorem exactSum_arr1234 : exactSum arr1234 4 = 10 := by
  decide
/-! ## The intermediate values are those of the loops -/

/-- The loop of `average_sequential` ends in the state reached after `size` iterations. -/
theorem seqLoop_sum_eq_seqSumAfter (arr : Mem) (size : Int) :
    (seqLoop size { arr := arr, i := 0, sum := 0 }).sum = seqSumAfter arr size.toNat := by
  rw [seqLoop_init_sum, seqSumAfter_eq]

/-- Each iteration adds `arr[k]` to the accumulator and reduces to 64 bits. -/
theorem seqSumAfter_succ (arr : Mem) (k : Nat) :
    seqSumAfter arr (k + 1) = wrap64 (seqSumAfter arr k + arr k) := by
  rw [seqSumAfter_eq, seqSumAfter_eq, wrap64_wrap64_add, exactSum_succ]

/-- A worker ends with the private sum reached after its whole chunk. -/
theorem runWorker_sum_eq_workerSumAfter (arr : Mem) (c : List Nat) :
    (runWorker arr c).sum = workerSumAfter arr c c.length := by
  unfold workerSumAfter
  rw [List.take_length]

/-- The reduction ends with the shared sum reached after all combination steps. -/
theorem combine_sum_eq_combinedAfter (arr : Mem) (sch : Schedule) :
    (combine (runWorkers arr sch.chunks).1 (runWorkers arr sch.chunks).2 sch.order).sum
      = combinedAfter arr sch sch.order.length := by
  unfold combinedAfter
  rw [List.take_length]
/-! ## Evaluation of the binary64 rounding -/

theorem log2_eq_of_bounds {n k : Nat} (h1 : 2 ^ k ≤ n) (h2 : n < 2 ^ (k + 1)) :
    Nat.log2 n = k := by
  have hn : n ≠ 0 := by
    have : 0 < 2 ^ k := Nat.two_pow_pos k
    omega
  have hlt : n.log2 < k + 1 := (Nat.log2_lt hn).mpr h2
  have hge : ¬ n.log2 < k := fun h => by
    have := (Nat.log2_lt hn).mp h
    omega
  omega

theorem roundPos_of_log2 (n d : Nat) (a b : Nat) (ha : Nat.log2 n = a) (hb : Nat.log2 d = b)
    (k : Int)
    (hk : (if (scalePow2 n d ((a : Int) - (b : Int))).2 ≤ (scalePow2 n d ((a : Int) - (b : Int))).1
      then (a : Int) - (b : Int) else (a : Int) - (b : Int) - 1) = k) :
    roundPos n d = (divTiesEven (scalePow2 n d (k - 52)).1 (scalePow2 n d (k - 52)).2 : ℚ)
      * (2 : ℚ) ^ (k - 52) := by
  have hf : floorLog2Quot n d = k := by
    unfold floorLog2Quot
    rw [ha, hb]
    exact hk
  unfold roundPos
  rw [hf]

theorem log2_one : Nat.log2 1 = 0 := log2_eq_of_bounds (by decide) (by decide)

theorem roundQuot_10_4 : roundQuot 10 4 = 5 / 2 := by
  have h := roundPos_of_log2 10 4 3 2 (log2_eq_of_bounds (by decide) (by decide))
    (log2_eq_of_bounds (by decide) (by decide)) 1 (by decide)
  have hs : scalePow2 10 4 (1 - 52) = (10 * 2 ^ 51, 4) := by decide
  have hd : divTiesEven (10 * 2 ^ 51) 4 = 5629499534213120 := by decide
  rw [hs] at h
  simp only [hd] at h
  have hq : roundQuot 10 4 = roundPos 10 4 := by
    simp [roundQuot]
  rw [hq, h]
  norm_num

theorem divTiesEven_one (n : Nat) : divTiesEven n 1 = n := by
  simp [divTiesEven, Nat.mod_one]

theorem floorLog2Quot_one (n : Nat) (hn : n ≠ 0) : floorLog2Quot n 1 = (Nat.log2 n : Int) := by
  have hle := Nat.log2_self_le hn
  unfold floorLog2Quot
  rw [log2_one]
  have h0 : (0 : Int) ≤ (Nat.log2 n : Int) - ((0 : Nat) : Int) := by omega
  simp only [scalePow2, h0, if_true]
  have e : ((Nat.log2 n : Int) - ((0 : Nat) : Int)).toNat = Nat.log2 n := by omega
  rw [e, if_pos (by omega)]
  omega

/-- A positive integer of at most 53 bits (or `2^53` itself) is a `double`:
rounding leaves it as it is. -/
theorem roundPos_nat_exact (n : Nat) (h0 : 0 < n) (hn : n ≤ 2 ^ 53) : roundPos n 1 = (n : ℚ) := by
  have hne : n ≠ 0 := by omega
  have hle := Nat.log2_self_le hne
  have hL : Nat.log2 n < 54 := (Nat.log2_lt hne).mpr (by
    have : (2 : Nat) ^ 53 < 2 ^ 54 := by decide
    omega)
  unfold roundPos
  rw [floorLog2Quot_one n hne]
  by_cases h53 : Nat.log2 n = 53
  · rw [h53] at hle
    have hn53 : n = 2 ^ 53 := by omega
    subst hn53
    rw [h53]
    have hs : scalePow2 (2 ^ 53) 1 (((53 : Nat) : Int) - 52) = (2 ^ 53, 2) := by decide
    rw [hs]
    have hd : divTiesEven (2 ^ 53) 2 = 2 ^ 52 := by decide
    simp only [hd]
    norm_num
  · have hL52 : Nat.log2 n ≤ 52 := by omega
    by_cases h52 : Nat.log2 n = 52
    · rw [h52]
      have hs : scalePow2 n 1 (((52 : Nat) : Int) - 52) = (n, 1) := by
        simp [scalePow2]
      rw [hs]
      simp only [divTiesEven_one]
      norm_num
    · have hneg : ¬ (0 : Int) ≤ (Nat.log2 n : Int) - 52 := by omega
      have hs : scalePow2 n 1 ((Nat.log2 n : Int) - 52)
          = (n * 2 ^ (52 - Nat.log2 n), 1) := by
        simp only [scalePow2, hneg, if_false]
        have e : (-((Nat.log2 n : Int) - 52)).toNat = 52 - Nat.log2 n := by omega
        rw [e]
      rw [hs]
      simp only [divTiesEven_one]
      have he : (Nat.log2 n : Int) - 52 = -((52 - Nat.log2 n : Nat) : Int) := by omega
      rw [he, zpow_neg, zpow_natCast]
      push_cast
      field_simp

/-- The conversion of an integer `z` with `|z| ≤ 2^53` to `double` is exact. -/
theorem roundQuot_int_exact (z : Int) (hz : |z| ≤ 9007199254740992) : roundQuot z 1 = (z : ℚ) := by
  have habs := abs_le.mp hz
  unfold roundQuot
  by_cases h0 : z = 0
  · simp [h0]
  · rw [if_neg h0]
    have hpos : roundPos z.natAbs (1 : Int).natAbs = (z.natAbs : ℚ) := by
      have e : (1 : Int).natAbs = 1 := rfl
      rw [e]
      apply roundPos_nat_exact
      · omega
      · have : (2 : Nat) ^ 53 = 9007199254740992 := by decide
        omega
    rw [hpos]
    have hcast : (z.natAbs : ℚ) = ((|z| : Int) : ℚ) := Nat.cast_natAbs z
    by_cases hp : 0 < z
    · rw [if_pos (Or.inl ⟨hp, by decide⟩), hcast, abs_of_pos hp]
    · have hn : z < 0 := by omega
      rw [if_neg (by
        intro h
        rcases h with h | h
        · exact hp h.1
        · exact absurd h.2 (by decide)), hcast, abs_of_neg hn]
      push_cast
      ring

/-- On two `double`s that are integers the division is their quotient rounded once. -/
theorem ieeeDiv_int (a b : Int) (hb : b ≠ 0) :
    ieeeDiv (some (a : ℚ)) (some (b : ℚ)) = some (roundQuot a b) := by
  have hb' : ¬ ((b : ℚ) = 0) := by exact_mod_cast hb
  simp only [ieeeDiv, hb', if_false, Rat.num_intCast, Rat.den_intCast]
  simp

/-- The value returned under binary64 arithmetic, from the accumulator. -/
theorem ieee_result (s size : Int) (hpos : 0 < size) (hsize : size ≤ INT_MAX) :
    ieeeOps.div (ieeeOps.ofLongLong s) (ieeeOps.ofInt size)
      = ieeeDiv (some (roundQuot s 1)) (some (size : ℚ)) := by
  have h : roundQuot size 1 = (size : ℚ) := by
    apply roundQuot_int_exact
    unfold INT_MAX at hsize
    rw [abs_le]
    constructor <;> omega
  simp only [ieeeOps, h]

theorem roundQuot_sum_intMax : roundQuot 9007201398030335 1 = ((9007201398030336 : Int) : ℚ) := by
  have h := roundPos_of_log2 9007201398030335 1 53 0
    (log2_eq_of_bounds (by decide) (by decide)) log2_one 53 (by decide)
  have hs : scalePow2 9007201398030335 1 (53 - 52) = (9007201398030335, 2) := by decide
  have hd : divTiesEven 9007201398030335 2 = 4503600699015168 := by decide
  rw [hs] at h
  simp only [hd] at h
  have hq : roundQuot 9007201398030335 1 = roundPos 9007201398030335 1 := by
    simp [roundQuot]
  rw [hq, h]
  norm_num

theorem roundQuot_converted_sum :
    roundQuot 9007201398030336 4194305 = 9007199250546689 / 4194304 := by
  have h := roundPos_of_log2 9007201398030336 4194305 53 22
    (log2_eq_of_bounds (by decide) (by decide))
    (log2_eq_of_bounds (by decide) (by decide)) 30 (by decide)
  have hs : scalePow2 9007201398030336 4194305 (30 - 52)
      = (9007201398030336 * 2 ^ 22, 4194305) := by decide
  have hd : divTiesEven (9007201398030336 * 2 ^ 22) 4194305 = 9007199250546689 := by decide
  rw [hs] at h
  simp only [hd] at h
  have hq : roundQuot 9007201398030336 4194305 = roundPos 9007201398030336 4194305 := by
    simp [roundQuot]
  rw [hq, h]
  norm_num

theorem roundQuot_exact_sum : roundQuot 9007201398030335 4194305 = 2147483647 := by
  have h := roundPos_of_log2 9007201398030335 4194305 53 22
    (log2_eq_of_bounds (by decide) (by decide))
    (log2_eq_of_bounds (by decide) (by decide)) 30 (by decide)
  have hs : scalePow2 9007201398030335 4194305 (30 - 52)
      = (9007201398030335 * 2 ^ 22, 4194305) := by decide
  have hd : divTiesEven (9007201398030335 * 2 ^ 22) 4194305 = 9007199250546688 := by decide
  rw [hs] at h
  simp only [hd] at h
  have hq : roundQuot 9007201398030335 4194305 = roundPos 9007201398030335 4194305 := by
    simp [roundQuot]
  rw [hq, h]
  norm_num

theorem exactSum_arrIntMax : exactSum arrIntMax 4194305 = 9007201398030335 := by
  unfold arrIntMax
  rw [exactSum_const]
  decide

/-- The model agrees with binary64 on a known value: `1.0 / 10` is
`3602879701896397 * 2^-55`, the `double` written `0.1`. -/
theorem roundQuot_one_tenth : roundQuot 1 10 = 3602879701896397 / 36028797018963968 := by
  have h := roundPos_of_log2 1 10 0 3 log2_one
    (log2_eq_of_bounds (by decide) (by decide)) (-4) (by decide)
  have hs : scalePow2 1 10 (-4 - 52) = (1 * 2 ^ 56, 10) := by decide
  have hd : divTiesEven (1 * 2 ^ 56) 10 = 7205759403792794 := by decide
  rw [hs] at h
  simp only [hd] at h
  have hq : roundQuot 1 10 = roundPos 1 10 := by
    simp [roundQuot]
  rw [hq, h]
  norm_num
/-! ## The properties of the specification -/

/-- C1, as the code behaves: for a non-empty array of `size` `int`s
(`0 < size`, and `size` is an `int`), the accumulator of `average_sequential`
holds after every iteration the exact mathematical sum of the elements read so
far (no wrap-around), so it ends with the exact sum of all elements.  The value
returned is the `double` division of `static_cast<double>(sum)` by `size`.
Under binary64 arithmetic, whenever `|sum| ≤ 2^53` (in particular whenever
`size ≤ 4194304 = 2^22`) the conversion is exact and the result is `sum / size`
rounded once, by the final division. -/
theorem average_sequential_returns_mean {D : Type} (ops : DoubleOps D) (arr : Mem) (size : Int)
    (hpos : 0 < size) (hsize : size ≤ INT_MAX)
    (h32 : ∀ i : Nat, (i : Int) < size → isInt32 (arr i)) :
    (∀ k : Nat, k ≤ size.toNat → seqSumAfter arr k = exactSum arr k) ∧
    (seqLoop size { arr := arr, i := 0, sum := 0 }).sum = exactSum arr size.toNat ∧
    (average_sequential ops arr size).1
      = ops.div (ops.ofLongLong (exactSum arr size.toNat)) (ops.ofInt size) ∧
    (average_sequential ieeeOps arr size).1
      = ieeeDiv (some (roundQuot (exactSum arr size.toNat) 1)) (some (size : ℚ)) ∧
    (|exactSum arr size.toNat| ≤ 9007199254740992 →
      roundQuot (exactSum arr size.toNat) 1 = (exactSum arr size.toNat : ℚ) ∧
      (average_sequential ieeeOps arr size).1
        = some (roundQuot (exactSum arr size.toNat) size)) ∧
    (size ≤ 4194304 →
      (average_sequential ieeeOps arr size).1
        = some (roundQuot (exactSum arr size.toNat) size)) := by
  have hfits := int32_sum_fits arr size.toNat (by omega) (fun i hi => h32 i (by omega))
  have hfit : ∀ k : Nat, k ≤ size.toNat → wrap64 (exactSum arr k) = exactSum arr k := by
    intro k hk
    exact (hfits (List.range k) (range_indices _ k hk)).1
  have hN := hfit size.toNat (le_refl _)
  have hieee : (average_sequential ieeeOps arr size).1
      = ieeeDiv (some (roundQuot (exactSum arr size.toNat) 1)) (some (size : ℚ)) := by
    rw [average_sequential_fst, hN, ieee_result _ size hpos hsize]
  have hsmall : |exactSum arr size.toNat| ≤ 9007199254740992 →
      roundQuot (exactSum arr size.toNat) 1 = (exactSum arr size.toNat : ℚ) ∧
      (average_sequential ieeeOps arr size).1
        = some (roundQuot (exactSum arr size.toNat) size) := by
    intro hb
    have hx := roundQuot_int_exact _ hb
    refine ⟨hx, ?_⟩
    rw [hieee, hx, ieeeDiv_int _ size (by omega)]
  refine ⟨?_, ?_, ?_, hieee, hsmall, ?_⟩
  · intro k hk
    rw [seqSumAfter_eq, hfit k hk]
  · rw [seqLoop_init_sum, hN]
  · rw [average_sequential_fst, hN]
  · intro h22
    apply (hsmall _).2
    have hb := (hfits (List.range size.toNat) (range_indices _ _ (le_refl _))).2
    rw [← exactSum_eq_over] at hb
    have hc : ((size.toNat : Nat) : Int) * 2147483648 ≤ 9007199254740992 := by omega
    exact le_trans hb hc

/-- C1 at the array `[1, 2, 3, 4]`: the sum is `10` and the returned `double` is `2.5`. -/
theorem average_sequential_returns_mean_witness :
    (seqLoop 4 { arr := arr1234, i := 0, sum := 0 }).sum = 10 ∧
    (average_sequential symOps arr1234 4).1 = DExpr.div (DExpr.ofLongLong 10) (DExpr.ofInt 4) ∧
    (average_sequential ieeeOps arr1234 4).1 = some (5 / 2) := by
  have e : (4 : Int).toNat = 4 := by decide
  have h := average_sequential_returns_mean symOps arr1234 4 (by decide) (by decide)
    (fun i _ => arr1234_isInt32 i)
  rw [e, exactSum_arr1234] at h
  refine ⟨h.2.1, h.2.2.1, ?_⟩
  rw [(h.2.2.2.2.1 (by decide)).2, roundQuot_10_4]

/-- C1 fails on the code: for `4194305` copies of `INT_MAX` the exact sum
`9007201398030335` exceeds `2^53` and is odd, so `static_cast<double>(sum)`
already rounds it (to `9007201398030336`), and the value returned,
`2147483647 + 2^-22`, differs from the mean `2147483647` rounded once (the mean
is itself a `double`). -/
theorem conversion_rounds_before_division :
    isInt32 (arrIntMax 0) ∧
    (seqLoop 4194305 { arr := arrIntMax, i := 0, sum := 0 }).sum = 9007201398030335 ∧
    roundQuot 9007201398030335 1 = 9007201398030336 ∧
    (average_sequential ieeeOps arrIntMax 4194305).1 = some (9007199250546689 / 4194304) ∧
    roundQuot (exactSum arrIntMax 4194305) 4194305 = 2147483647 ∧
    (average_sequential ieeeOps arrIntMax 4194305).1
      ≠ some (roundQuot (exactSum arrIntMax 4194305) 4194305) := by
  have e : (4194305 : Int).toNat = 4194305 := by decide
  have hsum : wrap64 (exactSum arrIntMax (4194305 : Int).toNat) = 9007201398030335 := by
    rw [e, exactSum_arrIntMax]
    decide
  have hconv : roundQuot 9007201398030335 1 = 9007201398030336 := by
    rw [roundQuot_sum_intMax]
    norm_num
  have hres : (average_sequential ieeeOps arrIntMax 4194305).1
      = some (9007199250546689 / 4194304) := by
    rw [average_sequential_fst, hsum, ieee_result _ 4194305 (by decide) (by decide),
      roundQuot_sum_intMax]
    have h := ieeeDiv_int 9007201398030336 4194305 (by decide)
    rw [roundQuot_converted_sum] at h
    exact_mod_cast h
  have hmean : roundQuot (exactSum arrIntMax 4194305) 4194305 = 2147483647 := by
    rw [exactSum_arrIntMax, roundQuot_exact_sum]
  refine ⟨by decide, ?_, hconv, hres, hmean, ?_⟩
  · rw [seqLoop_init_sum, hsum]
  · rw [hres, hmean]
    intro h
    have h2 := Option.some.inj h
    norm_num at h2

/-- C2: under every schedule that splits the iterations `0 .. size-1` among the
workers and combines every private sum once, `average_parallel` ends with the
same 64-bit sum as `average_sequential` and returns the same `double` (and
leaves the same memory). -/
theorem average_parallel_eq_sequential {D : Type} (ops : DoubleOps D) (arr : Mem) (size : Int)
    (sch : Schedule) (hv : sch.valid size) :
    (combine (runWorkers arr sch.chunks).1 (runWorkers arr sch.chunks).2 sch.order).sum
      = (seqLoop size { arr := arr, i := 0, sum := 0 }).sum ∧
    average_parallel ops arr size sch = average_sequential ops arr size := by
  refine ⟨?_, ?_⟩
  · rw [parallel_sum_eq arr size sch hv, seqLoop_init_sum]
  · apply Prod.ext
    · rw [average_parallel_fst ops arr size sch hv, average_sequential_fst]
    · rw [average_parallel_snd, average_sequential_snd]

/-- C2 at `[1, 2, 3, 4]` with two workers: both reducers return `2.5`. -/
theorem average_parallel_eq_sequential_witness :
    schedHalves.valid 4 ∧
    (average_parallel exactOps arr1234 4 schedHalves).1 = 5 / 2 ∧
    (average_sequential exactOps arr1234 4).1 = 5 / 2 := by
  have hv : schedHalves.valid 4 := by decide
  have h := (average_parallel_eq_sequential exactOps arr1234 4 schedHalves hv).2
  have hs : (average_sequential exactOps arr1234 4).1 = 5 / 2 := by
    rw [average_sequential_fst]
    have : wrap64 (exactSum arr1234 (4 : Int).toNat) = 10 := by decide
    rw [this]
    simp only [exactOps]
    norm_num
  exact ⟨hv, by rw [h]; exact hs, hs⟩

/-- C3: the result of `average_parallel` does not depend on the schedule: any
two valid schedules (any numbers of workers, any split of the iterations, any
order inside a chunk, any order of combination) give the same combined 64-bit
sum and the same returned value. -/
theorem average_parallel_deterministic {D : Type} (ops : DoubleOps D) (arr : Mem) (size : Int)
    (sch₁ sch₂ : Schedule) (hv₁ : sch₁.valid size) (hv₂ : sch₂.valid size) :
    (combine (runWorkers arr sch₁.chunks).1 (runWorkers arr sch₁.chunks).2 sch₁.order).sum
      = (combine (runWorkers arr sch₂.chunks).1 (runWorkers arr sch₂.chunks).2 sch₂.order).sum ∧
    average_parallel ops arr size sch₁ = average_parallel ops arr size sch₂ := by
  refine ⟨?_, ?_⟩
  · rw [parallel_sum_eq arr size sch₁ hv₁, parallel_sum_eq arr size sch₂ hv₂]
  · apply Prod.ext
    · rw [average_parallel_fst ops arr size sch₁ hv₁, average_parallel_fst ops arr size sch₂ hv₂]
    · rw [average_parallel_snd, average_parallel_snd]

/-- C3 at `[1, 2, 3, 4]`: two workers on halves and three workers on
interleaved iterations return the same value. -/
theorem average_parallel_deterministic_witness :
    schedHalves.valid 4 ∧ schedCyclic.valid 4 ∧
    average_parallel symOps arr1234 4 schedHalves = average_parallel symOps arr1234 4 schedCyclic :=
  ⟨by decide, by decide,
    (average_parallel_deterministic symOps arr1234 4 schedHalves schedCyclic
      (by decide) (by decide)).2⟩

/-- C4: for the expected input (at most `1000000` elements, each in `[1, 100]`)
every value taken by the accumulator of `average_sequential`, by the private
sum of any worker and by the shared sum of `average_parallel` is the exact sum
of the elements added so far and lies in `[0, 10^8]`: no addition overflows.
For `1000000` copies of `100` the sum is `10^8` and both reducers return
`10^8 / 10^6`, which is `100`. -/
theorem expected_input_no_overflow :
    (∀ (arr : Mem) (size : Int), size ≤ 1000000 →
      (∀ i : Nat, (i : Int) < size → 1 ≤ arr i ∧ arr i ≤ 100) →
      (∀ k : Nat, k ≤ size.toNat →
        seqSumAfter arr k = exactSum arr k ∧
        0 ≤ seqSumAfter arr k ∧ seqSumAfter arr k ≤ 100000000) ∧
      (∀ sch : Schedule, sch.valid size →
        (∀ c ∈ sch.chunks, ∀ k : Nat,
          workerSumAfter arr c k = exactSumOver arr (c.take k) ∧
          0 ≤ workerSumAfter arr c k ∧ workerSumAfter arr c k ≤ 100000000) ∧
        (∀ j : Nat,
          combinedAfter arr sch j = exactSumOver arr (combinedIndices sch j) ∧
          0 ≤ combinedAfter arr sch j ∧ combinedAfter arr sch j ≤ 100000000))) ∧
    ((seqLoop 1000000 { arr := arr100, i := 0, sum := 0 }).sum = 100000000 ∧
      (average_sequential symOps arr100 1000000).1
        = DExpr.div (DExpr.ofLongLong 100000000) (DExpr.ofInt 1000000) ∧
      (average_sequential exactOps arr100 1000000).1 = 100 ∧
      ∀ sch : Schedule, sch.valid 1000000 →
        (combine (runWorkers arr100 sch.chunks).1 (runWorkers arr100 sch.chunks).2 sch.order).sum
          = 100000000 ∧
        (average_parallel symOps arr100 1000000 sch).1
          = DExpr.div (DExpr.ofLongLong 100000000) (DExpr.ofInt 1000000) ∧
        (average_parallel exactOps arr100 1000000 sch).1 = 100) := by
  constructor
  · intro arr size hsize hval
    have hn : size.toNat ≤ 1000000 := by omega
    have hval' : ∀ i : Nat, i < size.toNat → 1 ≤ arr i ∧ arr i ≤ 100 :=
      fun i hi => hval i (by omega)
    constructor
    · intro k hk
      have h := expected_sum_fits arr size.toNat hn hval' (List.range k) (range_indices _ k hk)
      rw [seqSumAfter_eq, ← exactSum_eq_over] at *
      rw [h.1]
      exact ⟨rfl, h.2⟩
    · intro sch hv
      constructor
      · intro c hc k
        have h := expected_sum_fits arr size.toNat hn hval' (c.take k)
          (chunk_take_indices sch size hv c hc k)
        rw [workerSumAfter_eq, h.1]
        exact ⟨rfl, h.2⟩
      · intro j
        have h := expected_sum_fits arr size.toNat hn hval' (combinedIndices sch j)
          (combinedIndices_indices sch size hv j)
        rw [combinedAfter_eq, h.1]
        exact ⟨rfl, h.2⟩
  · have e : (1000000 : Int).toNat = 1000000 := by decide
    have hsum : wrap64 (exactSum arr100 (1000000 : Int).toNat) = 100000000 := by
      rw [e]
      unfold arr100
      rw [exactSum_const]
      decide
    refine ⟨?_, ?_, ?_, ?_⟩
    · rw [seqLoop_init_sum, hsum]
    · rw [average_sequential_fst, hsum]
      rfl
    · rw [average_sequential_fst, hsum]
      simp only [exactOps]
      norm_num
    · intro sch hv
      refine ⟨?_, ?_, ?_⟩
      · rw [parallel_sum_eq arr100 1000000 sch hv, hsum]
      · rw [average_parallel_fst symOps arr100 1000000 sch hv, hsum]
        rfl
      · rw [average_parallel_fst exactOps arr100 1000000 sch hv, hsum]
        simp only [exactOps]
        norm_num

/-- C4 at `[1, 2, 3, 4]` with two workers: the final sums are `10`, within `[0, 10^8]`. -/
theorem expected_input_no_overflow_witness :
    schedHalves.valid 4 ∧
    (seqSumAfter arr1234 4 = 10 ∧ 0 ≤ seqSumAfter arr1234 4 ∧ seqSumAfter arr1234 4 ≤ 100000000) ∧
    (combinedAfter arr1234 schedHalves 2 = 10 ∧ 0 ≤ combinedAfter arr1234 schedHalves 2 ∧
      combinedAfter arr1234 schedHalves 2 ≤ 100000000) := by
  have h := expected_input_no_overflow.1 arr1234 4 (by decide) arr1234_expected
  have hv : schedHalves.valid 4 := by decide
  have h1 := h.1 4 (by decide)
  have h2 := (h.2 schedHalves hv).2 2
  have e1 : exactSum arr1234 4 = 10 := by decide
  have e2 : exactSumOver arr1234 (combinedIndices schedHalves 2) = 10 := by decide
  rw [e1] at h1
  rw [e2] at h2
  exact ⟨hv, h1, h2⟩

/-- C5: for a one-element array that holds the `int` `x`, `average_sequential`
and `average_parallel` (under every valid schedule) return the `double`
division of `x`, converted, by `1`; whenever division by `1.0` is the identity
on `double`s, that is `x` converted to `double`. -/
theorem single_element_mean {D : Type} (ops : DoubleOps D) (arr : Mem)
    (h32 : isInt32 (arr 0)) :
    (average_sequential ops arr 1).1 = ops.div (ops.ofLongLong (arr 0)) (ops.ofInt 1) ∧
    (∀ sch : Schedule, sch.valid 1 →
      (average_parallel ops arr 1 sch).1 = ops.div (ops.ofLongLong (arr 0)) (ops.ofInt 1)) ∧
    ((∀ d : D, ops.div d (ops.ofInt 1) = d) →
      (average_sequential ops arr 1).1 = ops.ofLongLong (arr 0) ∧
      ∀ sch : Schedule, sch.valid 1 → (average_parallel ops arr 1 sch).1 = ops.ofLongLong (arr 0)) := by
  have hsum : wrap64 (exactSum arr (1 : Int).toNat) = arr 0 := by
    have e : (1 : Int).toNat = 1 := by decide
    rw [e]
    have : exactSum arr 1 = arr 0 := by
      rw [exactSum_succ]
      simp [exactSum]
    rw [this]
    apply wrap64_of_isInt64
    unfold isInt32 INT_MIN INT_MAX at h32
    unfold isInt64 LLONG_MIN LLONG_MAX
    omega
  have hs : (average_sequential ops arr 1).1
      = ops.div (ops.ofLongLong (arr 0)) (ops.ofInt 1) := by
    rw [average_sequential_fst, hsum]
  have hp : ∀ sch : Schedule, sch.valid 1 →
      (average_parallel ops arr 1 sch).1 = ops.div (ops.ofLongLong (arr 0)) (ops.ofInt 1) := by
    intro sch hv
    rw [average_parallel_fst ops arr 1 sch hv, hsum]
  refine ⟨hs, hp, ?_⟩
  intro hdiv
  refine ⟨?_, ?_⟩
  · rw [hs, hdiv]
  · intro sch hv
    rw [hp sch hv, hdiv]

/-- C5 at the one-element array `[INT_MIN]`: both reducers return `-2147483648`. -/
theorem single_element_mean_witness :
    isInt32 (arrIntMin 0) ∧ schedOne.valid 1 ∧
    (average_sequential exactOps arrIntMin 1).1 = -2147483648 ∧
    (average_parallel exactOps arrIntMin 1 schedOne).1 = -2147483648 := by
  have h32 : isInt32 (arrIntMin 0) := by decide
  have hv : schedOne.valid 1 := by decide
  have h := (single_element_mean exactOps arrIntMin h32).2.2
    (fun d => by simp [exactOps])
  have e : exactOps.ofLongLong (arrIntMin 0) = -2147483648 := by
    simp [exactOps, arrIntMin]
  rw [e] at h
  exact ⟨h32, hv, h.1, h.2 schedOne hv⟩

/-- C6, as the code behaves: with `size = 0` neither reducer raises an error.
The loop body is not executed, `sum` stays `0`, and the function returns the
`double` division of `0`, converted, by `size = 0`, leaving the memory as it
was. -/
theorem average_size_zero {D : Type} (ops : DoubleOps D) (arr : Mem) :
    average_sequential ops arr 0 = (ops.div (ops.ofLongLong 0) (ops.ofInt 0), arr) ∧
    ∀ sch : Schedule, sch.valid 0 →
      average_parallel ops arr 0 sch = (ops.div (ops.ofLongLong 0) (ops.ofInt 0), arr) := by
  have hsum : wrap64 (exactSum arr (0 : Int).toNat) = 0 := by
    simp [exactSum, wrap64]
  constructor
  · apply Prod.ext
    · rw [average_sequential_fst, hsum]
    · rw [average_sequential_snd]
  · intro sch hv
    apply Prod.ext
    · rw [average_parallel_fst ops arr 0 sch hv, hsum]
    · rw [average_parallel_snd]

/-- C6 at an empty array with two idle workers. -/
theorem average_size_zero_witness :
    schedIdle.valid 0 ∧
    average_parallel symOps arrZero 0 schedIdle
      = (DExpr.div (DExpr.ofLongLong 0) (DExpr.ofInt 0), arrZero) :=
  ⟨by decide, (average_size_zero symOps arrZero).2 schedIdle (by decide)⟩

/-- C6 fails on the code: called with `size = 0`, both reducers perform the
division by zero and return its value; there is no error path. -/
theorem size_zero_returns_quotient :
    (average_sequential symOps arrZero 0).1 = DExpr.div (DExpr.ofLongLong 0) (DExpr.ofInt 0) ∧
    (average_parallel symOps arrZero 0 schedIdle).1
      = DExpr.div (DExpr.ofLongLong 0) (DExpr.ofInt 0) := by
  constructor
  · rw [average_sequential_fst]
    rfl
  · rw [average_parallel_fst symOps arrZero 0 schedIdle (by decide)]
    rfl

/-- C7: the input buffer is only read: after `average_sequential` and after
`average_parallel` (under any schedule, valid or not) every cell holds the value
it held before the call. -/
theorem reducers_leave_buffer_unchanged {D : Type} (ops : DoubleOps D) (arr : Mem) (size : Int)
    (i : Nat) :
    (average_sequential ops arr size).2 i = arr i ∧
    ∀ sch : Schedule, (average_parallel ops arr size sch).2 i = arr i := by
  constructor
  · rw [average_sequential_snd]
  · intro sch
    rw [average_parallel_snd]

/-- C8: if `rand()` only returns non-negative values, `fill_array(arr, size)`
stores `rand() % 100 + 1` of the successive calls in `arr[0 .. size-1]`, each
stored value is in `[1, 100]`, and no cell of index `size` or more is written. -/
theorem fill_array_range (rand : Nat → Int) (arr : Mem) (size : Int)
    (hrand : ∀ k : Nat, 0 ≤ rand k) :
    (∀ i : Nat, (i : Int) < size →
      fill_array rand arr size i = Int.tmod (rand i) 100 + 1 ∧
      1 ≤ fill_array rand arr size i ∧ fill_array rand arr size i ≤ 100) ∧
    (∀ j : Nat, size ≤ (j : Int) → fill_array rand arr size j = arr j) := by
  rw [fill_array_eq]
  constructor
  · intro i hi
    have hlt : i < size.toNat := by omega
    simp only [hlt, if_true]
    have h0 := Int.tmod_nonneg 100 (hrand i)
    have h1 := Int.tmod_lt_of_pos (rand i) (by decide : (0 : Int) < 100)
    refine ⟨trivial, ?_, ?_⟩ <;> omega
  · intro j hj
    have hge : ¬ j < size.toNat := by omega
    simp only [hge, if_false]

/-- C8 with a `rand()` that returns `99, 100, 101, 102`: the four cells get
`100, 1, 2, 3` and the fifth cell keeps its value. -/
theorem fill_array_range_witness :
    fill_array randFrom99 arrZero 4 0 = 100 ∧ fill_array randFrom99 arrZero 4 1 = 1 ∧
    fill_array randFrom99 arrZero 4 2 = 2 ∧ fill_array randFrom99 arrZero 4 3 = 3 ∧
    fill_array randFrom99 arrZero 4 4 = arrZero 4 := by
  have h := fill_array_range randFrom99 arrZero 4 (fun k => by unfold randFrom99; omega)
  have h0 := (h.1 0 (by decide)).1
  have h1 := (h.1 1 (by decide)).1
  have h2 := (h.1 2 (by decide)).1
  have h3 := (h.1 3 (by decide)).1
  have h4 := h.2 4 (by decide)
  refine ⟨h0.trans (by decide), h1.trans (by decide), h2.trans (by decide),
    h3.trans (by decide), h4⟩

/-- C10: for every array of `int`s and every `int` size `0 ≤ size ≤ INT_MAX`,
`size * 2^31 < 2^63`, and every value taken by `sum` in `average_sequential`,
by the private sum of any worker and by the shared sum in `average_parallel`
(under every valid schedule) is the mathematical sum of the elements added so
far, of absolute value at most `size * 2^31`: the 64-bit accumulator never
wraps, and both final sums are the mathematical sum of all elements. -/
theorem accumulator_never_overflows (arr : Mem) (size : Int)
    (h0 : 0 ≤ size) (hsize : size ≤ INT_MAX)
    (h32 : ∀ i : Nat, (i : Int) < size → isInt32 (arr i)) :
    size * 2147483648 < 9223372036854775808 ∧
    (∀ k : Nat, k ≤ size.toNat →
      seqSumAfter arr k = exactSum arr k ∧ |seqSumAfter arr k| ≤ size * 2147483648) ∧
    (seqLoop size { arr := arr, i := 0, sum := 0 }).sum = exactSum arr size.toNat ∧
    (∀ sch : Schedule, sch.valid size →
      (∀ c ∈ sch.chunks, ∀ k : Nat,
        workerSumAfter arr c k = exactSumOver arr (c.take k) ∧
        |workerSumAfter arr c k| ≤ size * 2147483648) ∧
      (∀ j : Nat,
        combinedAfter arr sch j = exactSumOver arr (combinedIndices sch j) ∧
        |combinedAfter arr sch j| ≤ size * 2147483648) ∧
      (combine (runWorkers arr sch.chunks).1 (runWorkers arr sch.chunks).2 sch.order).sum
        = exactSum arr size.toNat) := by
  have hn : ((size.toNat : Nat) : Int) ≤ INT_MAX := by omega
  have hcast : ((size.toNat : Nat) : Int) = size := by omega
  have h32' : ∀ i : Nat, i < size.toNat → isInt32 (arr i) := fun i hi => h32 i (by omega)
  have hfit := int32_sum_fits arr size.toNat hn h32'
  rw [hcast] at hfit
  have hseq : ∀ k : Nat, k ≤ size.toNat →
      seqSumAfter arr k = exactSum arr k ∧ |seqSumAfter arr k| ≤ size * 2147483648 := by
    intro k hk
    have h := hfit (List.range k) (range_indices _ k hk)
    rw [← exactSum_eq_over] at h
    rw [seqSumAfter_eq, h.1]
    exact ⟨rfl, h.2⟩
  refine ⟨?_, hseq, ?_, ?_⟩
  · unfold INT_MAX at hsize
    omega
  · rw [seqLoop_sum_eq_seqSumAfter]
    exact (hseq size.toNat (le_refl _)).1
  · intro sch hv
    refine ⟨?_, ?_, ?_⟩
    · intro c hc k
      have h := hfit (c.take k) (chunk_take_indices sch size hv c hc k)
      rw [workerSumAfter_eq, h.1]
      exact ⟨rfl, h.2⟩
    · intro j
      have h := hfit (combinedIndices sch j) (combinedIndices_indices sch size hv j)
      rw [combinedAfter_eq, h.1]
      exact ⟨rfl, h.2⟩
    · rw [parallel_sum_eq arr size sch hv, ← seqSumAfter_eq]
      exact (hseq size.toNat (le_refl _)).1

/-- C10 at `[1, 2, 3, 4]` with three workers: both final sums are `10`. -/
theorem accumulator_never_overflows_witness :
    schedCyclic.valid 4 ∧
    (seqLoop 4 { arr := arr1234, i := 0, sum := 0 }).sum = 10 ∧
    (combine (runWorkers arr1234 schedCyclic.chunks).1 (runWorkers arr1234 schedCyclic.chunks).2
      schedCyclic.order).sum = 10 := by
  have h := accumulator_never_overflows arr1234 4 (by decide) (by decide)
    (fun i _ => arr1234_isInt32 i)
  have hv : schedCyclic.valid 4 := by decide
  have e : (4 : Int).toNat = 4 := by decide
  rw [e, exactSum_arr1234] at h
  exact ⟨hv, h.2.2.1, (h.2.2.2 schedCyclic hv).2.2⟩

end Lab1_3
